import Mathlib

/-!
Verification of `find_possible_prokaryotic_promoters.py`.

The program's core is a fuzzy motif scorer (`fuzzy_match`) and a dual-motif
window scanner (`find_possible_prokaryotic_sequences`).  Strings are embedded
as `List Char`; Python's `str.upper` is embedded for ASCII characters; the
scanner's parallel result arrays are embedded as a structure of three lists.
`fuzzy_match` returns `Option Nat`: `none` embeds the `IndexError` raised when
the first string is longer than the second (the loop runs over the indices of
`string1` and reads `string2[index]`).
-/

/-- Python `str.upper` on a single ASCII character: lowercase letters are
mapped to uppercase, everything else is unchanged. -/
def upper_char (c : Char) : Char :=
  if 'a' ≤ c ∧ c ≤ 'z' then Char.ofNat (c.toNat - 32) else c

/-- The per-position contribution of the loop body of `fuzzy_match`
(source lines 74-108): the chain of `if`/`elif` tests on the pattern
character `c2` against the observed character `c1`, both already
uppercased.  Note the `R` branch compares the observed character with the
literal characters `A` and `Y`, exactly as the source does. -/
def char_match (c1 c2 : Char) : Nat :=
  if c1 = c2 then 1
  else if c2 = 'R' then (if c1 = 'A' ∨ c1 = 'Y' then 1 else 0)
  else if c2 = 'Y' then (if c1 = 'C' ∨ c1 = 'T' then 1 else 0)
  else if c2 = 'S' then (if c1 = 'C' ∨ c1 = 'G' then 1 else 0)
  else if c2 = 'W' then (if c1 = 'A' ∨ c1 = 'T' then 1 else 0)
  else if c2 = 'K' then (if c1 = 'G' ∨ c1 = 'T' then 1 else 0)
  else if c2 = 'M' then (if c1 = 'A' ∨ c1 = 'C' then 1 else 0)
  else if c2 = 'B' then (if c1 = 'C' ∨ c1 = 'G' ∨ c1 = 'T' then 1 else 0)
  else if c2 = 'V' then (if c1 = 'A' ∨ c1 = 'C' ∨ c1 = 'G' then 1 else 0)
  else if c2 = 'D' then (if c1 = 'A' ∨ c1 = 'G' ∨ c1 = 'T' then 1 else 0)
  else if c2 = 'H' then (if c1 = 'A' ∨ c1 = 'C' ∨ c1 = 'T' then 1 else 0)
  else if c2 = 'N' then 1
  else 0

/-- The loop of `fuzzy_match`: `index` runs over the positions of the first
string and reads `string2[index]`.  When the second list runs out while the
first still has characters, the Python code raises `IndexError`; this is the
`none` case. -/
def fuzzy_match_aux : List Char → List Char → Nat → Option Nat
  | [], _, acc => some acc
  | _ :: _, [], _ => none
  | c1 :: t1, c2 :: t2, acc => fuzzy_match_aux t1 t2 (acc + char_match c1 c2)

/-- `fuzzy_match(string1, string2)` (source lines 61-109): both strings are
uppercased, then the loop counts per-position matches. -/
def fuzzy_match (string1 string2 : List Char) : Option Nat :=
  fuzzy_match_aux (string1.map upper_char) (string2.map upper_char) 0

/-- The most common -10 consensus sequence (source line 41). -/
def SEQUENCE_10 : List Char := "TATAAT".toList

/-- The most common -35 consensus sequence (source line 42). -/
def SEQUENCE_35 : List Char := "TTGACA".toList

/-- The dict of parallel result arrays built by
`find_possible_prokaryotic_sequences` (source lines 128-132). -/
structure PossiblePromoters where
  positions : List Nat
  sequences : List (List Char)
  scores : List Nat
deriving DecidableEq

/-- `num_matching_nucleotides` at anchor `i` (source line 134):
`fuzzy_match(SEQUENCE_35, input[i : i+6])`.  Inside the scanner the window
always has length 6 (`i ≤ length - 6`), so `fuzzy_match` is always `some`
and the `getD 0` default is never taken. -/
def score35 (seq : List Char) (i : Nat) : Nat :=
  (fuzzy_match SEQUENCE_35 ((seq.drop i).take 6)).getD 0

/-- `next_matching_nucleotides` at offset `j` (source line 139):
`fuzzy_match(SEQUENCE_10, input[j : j+6])`.  Inside the scanner the window
always has length 6 (`j < length - 11`), so the `getD 0` default is never
taken. -/
def score10 (seq : List Char) (j : Nat) : Nat :=
  (fuzzy_match SEQUENCE_10 ((seq.drop j).take 6)).getD 0

/-- Appending one candidate to the three parallel arrays (source lines
142-144): the anchor position `i`, the spanned substring `input[i : j+6]`,
and the combined score. -/
def push_entry (seq : List Char) (i j n35 : Nat) (acc : PossiblePromoters) :
    PossiblePromoters :=
  ⟨acc.positions ++ [i],
   acc.sequences ++ [(seq.drop i).take (j + 6 - i)],
   acc.scores ++ [n35 + score10 seq j]⟩

/-- The body of the inner `while` loop (source lines 139-144): score the
window at `j` against the -10 consensus, and on success append the anchor
position, the spanned substring `input[i : j+6]` and the combined score to
the three parallel arrays - unless position `i` was already recorded. -/
def inner_step (seq : List Char) (threshold : Int) (i n35 : Nat)
    (acc : PossiblePromoters) (j : Nat) : PossiblePromoters :=
  if 4 ≤ score10 seq j ∧ threshold ≤ (n35 : Int) + (score10 seq j : Int) then
    if i ∈ acc.positions then acc
    else push_entry seq i j n35 acc
  else acc

/-- The inner `while` loop (source lines 137-145): `j` starts at `i+21` and
increases while `j < len(input) - 11` and `j < i + 31` both hold.  `fuel`
bounds the number of remaining iterations; the scanner calls it with
`fuel = 10`, which is exact because `j < i + 31` stops the loop after at
most 10 steps from `j = i + 21`.  Note `j < seq.length - 11` over `Nat`
agrees with Python's signed comparison because both are false whenever
`seq.length < 11`. -/
def inner_loop (seq : List Char) (threshold : Int) (i n35 : Nat) :
    Nat → Nat → PossiblePromoters → PossiblePromoters
  | _, 0, acc => acc
  | j, fuel + 1, acc =>
    if j < seq.length - 11 ∧ j < i + 31 then
      inner_loop seq threshold i n35 (j + 1) fuel (inner_step seq threshold i n35 acc j)
    else acc

/-- The offsets `j` visited by the inner `while` loop starting at `j`, in
order: the loop advances exactly while `j < len(input) - 11` and
`j < i + 31` hold. -/
def examined_offsets (seq : List Char) (i : Nat) : Nat → Nat → List Nat
  | _, 0 => []
  | j, fuel + 1 =>
    if j < seq.length - 11 ∧ j < i + 31 then j :: examined_offsets seq i (j + 1) fuel
    else []

/-- The offsets examined downstream of an admitted -35 anchor at `i`:
the inner loop starts at `j = i + 21` and makes at most 10 steps. -/
def inner_examined (seq : List Char) (i : Nat) : List Nat :=
  examined_offsets seq i (i + 21) 10

/-- One iteration of the outer `for` loop (source lines 133-136): score the
window at `i` against the -35 consensus and, if at least 4 positions match,
run the inner loop from `i + 21`. -/
def outer_step (seq : List Char) (threshold : Int)
    (acc : PossiblePromoters) (i : Nat) : PossiblePromoters :=
  if 4 ≤ score35 seq i then
    inner_loop seq threshold i (score35 seq i) (i + 21) 10 acc
  else acc

/-- `find_possible_prokaryotic_sequences` (source lines 113-146): fold the
outer step over `range(0, len(input) - 5)` starting from the empty dict.
`Nat` truncation in `seq.length - 5` agrees with Python because
`range(0, n)` is empty for `n ≤ 0`. -/
def find_possible_prokaryotic_sequences (seq : List Char) (threshold : Int) :
    PossiblePromoters :=
  (List.range (seq.length - 5)).foldl (outer_step seq threshold) ⟨[], [], []⟩

/-- The four standard nucleotide symbols, the alphabet of validated input
(cf. `check_is_dna`). -/
def bases : List Char := ['A', 'C', 'G', 'T']

/-- Offset `j` qualifies as the -10 element for the -35 anchor `i`: it lies
in the examined window and both score conditions of source line 140 hold. -/
abbrev Qualifies (seq : List Char) (threshold : Int) (i j : Nat) : Prop :=
  i + 21 ≤ j ∧ j < seq.length - 11 ∧ j < i + 31 ∧ 4 ≤ score10 seq j ∧
    threshold ≤ (score35 seq i : Int) + (score10 seq j : Int)

/-- The input sequence of the spec's end-to-end scenario (§8); it has 30
characters. -/
def scenario_seq : List Char := "TTGACATGTAAAAAAAAAAAAAAATATAAT".toList

/-- A sequence on which the scanner does find a candidate: a perfect -35
element at 0, a 15-nucleotide spacer, a perfect -10 element at 21, and six
trailing nucleotides (length 33).  Used to witness the universally
quantified theorems. -/
def test_seq : List Char :=
  ("TTGACA" ++ "AAAAAAAAAAAAAAA" ++ "TATAAT" ++ "AAAAAA").toList

/-- The conditions checked by the inner loop at offset `j` for anchor `i`
with -35 score `n35`: the two loop-guard bounds of source line 137 and the
two score conditions of source line 140. -/
abbrev InnerQ (seq : List Char) (threshold : Int) (i n35 j : Nat) : Prop :=
  j < seq.length - 11 ∧ j < i + 31 ∧ 4 ≤ score10 seq j ∧
    threshold ≤ (n35 : Int) + (score10 seq j : Int)

/-- The list of candidate tuples (position, span, score) carried by the
three parallel arrays. -/
def candidates (r : PossiblePromoters) : List (Nat × (List Char × Nat)) :=
  r.positions.zip (r.sequences.zip r.scores)

/-- What holds of every recorded candidate tuple: it was recorded at the
smallest qualifying -10 offset `j` for its anchor, spans `input[i : j+6]`,
and carries the combined score. -/
def EntryInv (seq : List Char) (threshold : Int)
    (t : Nat × (List Char × Nat)) : Prop :=
  ∃ j, Qualifies seq threshold t.1 j ∧
    (∀ j', Qualifies seq threshold t.1 j' → j ≤ j') ∧
    t.2.1 = (seq.drop t.1).take (j + 6 - t.1) ∧
    t.2.2 = score35 seq t.1 + score10 seq j

/-- The invariant of the outer fold after the anchors `0, ..., k-1` have
been processed. -/
def ScanInv (seq : List Char) (threshold : Int) (k : Nat)
    (acc : PossiblePromoters) : Prop :=
  acc.sequences.length = acc.positions.length ∧
  acc.scores.length = acc.positions.length ∧
  acc.positions.Pairwise (· < ·) ∧
  (∀ x, x ∈ acc.positions ↔
    (x < k ∧ 4 ≤ score35 seq x ∧ ∃ j, Qualifies seq threshold x j)) ∧
  (∀ t ∈ candidates acc, EntryInv seq threshold t)


/-- Once position `i` is recorded, the inner loop never changes the
accumulator again: the membership test of source line 141 blocks every
further append. -/
theorem inner_loop_of_mem (seq : List Char) (threshold : Int) (i n35 : Nat) :
    ∀ fuel j acc, i ∈ acc.positions →
      inner_loop seq threshold i n35 j fuel acc = acc := by
  intro fuel
  induction fuel with
  | zero => intro j acc _; rfl
  | succ fuel ih =>
    intro j acc h
    unfold inner_loop
    split
    · have hstep : inner_step seq threshold i n35 acc j = acc := by
        unfold inner_step
        by_cases hs : 4 ≤ score10 seq j ∧
            threshold ≤ (n35 : Int) + (score10 seq j : Int)
        · rw [if_pos hs, if_pos h]
        · rw [if_neg hs]
      rw [hstep]
      exact ih (j + 1) acc h
    · rfl

/-- Characterization of the inner `while` loop on an accumulator that does
not yet contain `i`: either some offset in the scanned range satisfies all
four conditions, and the accumulator is extended exactly once, at the
smallest such offset; or none does and the accumulator is unchanged. -/
theorem inner_loop_spec (seq : List Char) (threshold : Int) (i n35 : Nat) :
    ∀ fuel j0 acc, i ∉ acc.positions →
      (∃ j, j0 ≤ j ∧ j < j0 + fuel ∧ InnerQ seq threshold i n35 j ∧
        (∀ j', j0 ≤ j' → InnerQ seq threshold i n35 j' → j ≤ j') ∧
        inner_loop seq threshold i n35 j0 fuel acc = push_entry seq i j n35 acc)
      ∨ ((∀ j, j0 ≤ j → j < j0 + fuel → ¬ InnerQ seq threshold i n35 j) ∧
         inner_loop seq threshold i n35 j0 fuel acc = acc) := by
  intro fuel
  induction fuel with
  | zero =>
    intro j0 acc _
    exact Or.inr ⟨fun j h1 h2 => absurd h2 (by omega), rfl⟩
  | succ fuel ih =>
    intro j0 acc hmem
    unfold inner_loop
    by_cases hc : j0 < seq.length - 11 ∧ j0 < i + 31
    · rw [if_pos hc]
      by_cases hs : 4 ≤ score10 seq j0 ∧
          threshold ≤ (n35 : Int) + (score10 seq j0 : Int)
      · have hstep : inner_step seq threshold i n35 acc j0 =
            push_entry seq i j0 n35 acc := by
          unfold inner_step
          rw [if_pos hs, if_neg hmem]
        have hin : i ∈ (push_entry seq i j0 n35 acc).positions := by
          unfold push_entry
          simp
        rw [hstep, inner_loop_of_mem seq threshold i n35 fuel (j0 + 1) _ hin]
        left
        refine ⟨j0, Nat.le_refl j0, by omega, ?_, ?_, rfl⟩
        · exact ⟨hc.1, hc.2, hs.1, hs.2⟩
        · exact fun j' h1 _ => h1
      · have hstep : inner_step seq threshold i n35 acc j0 = acc := by
          unfold inner_step
          rw [if_neg hs]
        rw [hstep]
        rcases ih (j0 + 1) acc hmem with ⟨j, h1, h2, hq, hmin, heq⟩ | ⟨hnone, heq⟩
        · refine Or.inl ⟨j, by omega, by omega, hq, ?_, heq⟩
          intro j' hj' hq'
          rcases Nat.eq_or_lt_of_le hj' with h | h
          · subst h
            exact (hs ⟨hq'.2.2.1, hq'.2.2.2⟩).elim
          · exact hmin j' (by omega) hq'
        · refine Or.inr ⟨?_, heq⟩
          intro j h1 h2 hq
          rcases Nat.eq_or_lt_of_le h1 with h | h
          · exact hs (by rw [h]; exact ⟨hq.2.2.1, hq.2.2.2⟩)
          · exact hnone j (by omega) (by omega) hq
    · rw [if_neg hc]
      refine Or.inr ⟨?_, rfl⟩
      intro j h1 _ hq
      exact hc ⟨by omega, by omega⟩

/-- Zipping three parallel lists distributes over appending one element to
each, provided the lists have equal lengths. -/
theorem zip3_append_one {α β γ : Type} (l1 : List α) (l2 : List β) (l3 : List γ)
    (a : α) (b : β) (c : γ) (h1 : l2.length = l1.length) (h2 : l3.length = l1.length) :
    (l1 ++ [a]).zip ((l2 ++ [b]).zip (l3 ++ [c])) =
      l1.zip (l2.zip l3) ++ [(a, (b, c))] := by
  induction l1 generalizing l2 l3 with
  | nil =>
    have e2 : l2 = [] := List.length_eq_zero.mp (by simpa using h1)
    have e3 : l3 = [] := List.length_eq_zero.mp (by simpa using h2)
    subst e2
    subst e3
    rfl
  | cons x xs ih =>
    cases l2 with
    | nil => simp at h1
    | cons y ys =>
      cases l3 with
      | nil => simp at h2
      | cons z zs =>
        simp only [List.cons_append, List.zip_cons_cons]
        rw [ih ys zs (by simpa using h1) (by simpa using h2)]

/-- The first component of a member of a three-way zip is a member of the
first list. -/
theorem mem_zip3_fst {α β γ : Type} :
    ∀ (l1 : List α) (l2 : List β) (l3 : List γ) (t : α × β × γ),
      t ∈ l1.zip (l2.zip l3) → t.1 ∈ l1 := by
  intro l1
  induction l1 with
  | nil => intro l2 l3 t h; simp at h
  | cons x xs ih =>
    intro l2 l3 t h
    cases l2 with
    | nil => simp at h
    | cons y ys =>
      cases l3 with
      | nil => simp at h
      | cons z zs =>
        rw [List.zip_cons_cons, List.zip_cons_cons] at h
        rcases List.mem_cons.mp h with h | h
        · rw [h]; exact List.mem_cons_self x xs
        · exact List.mem_cons_of_mem x (ih ys zs t h)

/-- One outer iteration preserves the scan invariant, advancing the bound. -/
theorem scan_inv_step (seq : List Char) (threshold : Int) (k : Nat)
    (acc : PossiblePromoters) (h : ScanInv seq threshold k acc) :
    ScanInv seq threshold (k + 1) (outer_step seq threshold acc k) := by
  obtain ⟨hl1, hl2, hpw, hiff, hent⟩ := h
  unfold outer_step
  by_cases h35 : 4 ≤ score35 seq k
  · rw [if_pos h35]
    have hnotin : k ∉ acc.positions := by
      intro hk
      have := ((hiff k).mp hk).1
      omega
    rcases inner_loop_spec seq threshold k (score35 seq k) 10 (k + 21) acc hnotin with
      ⟨j, hj1, hj2, hq, hmin, heq⟩ | ⟨hnone, heq⟩
    · rw [heq]
      have hq' : Qualifies seq threshold k j :=
        ⟨hj1, hq.1, hq.2.1, hq.2.2.1, hq.2.2.2⟩
      refine ⟨?_, ?_, ?_, ?_, ?_⟩
      · simp [push_entry, hl1]
      · simp [push_entry, hl2]
      · refine List.pairwise_append.mpr ⟨hpw, List.pairwise_singleton _ _, ?_⟩
        intro a ha b hb
        rw [List.mem_singleton.mp hb]
        exact ((hiff a).mp ha).1
      · intro x
        show x ∈ acc.positions ++ [k] ↔ _
        rw [List.mem_append, List.mem_singleton, hiff x]
        constructor
        · rintro (⟨a, b, c⟩ | rfl)
          · exact ⟨by omega, b, c⟩
          · exact ⟨by omega, h35, ⟨j, hq'⟩⟩
        · rintro ⟨a, b, c⟩
          rcases (show x < k ∨ x = k by omega) with hlt | hEq
          · exact Or.inl ⟨hlt, b, c⟩
          · exact Or.inr hEq
      · intro t ht
        have hcand : candidates (push_entry seq k j (score35 seq k) acc) =
            candidates acc ++
              [(k, ((seq.drop k).take (j + 6 - k), score35 seq k + score10 seq j))] := by
          unfold candidates push_entry
          exact zip3_append_one _ _ _ _ _ _ hl1 hl2
        rw [hcand] at ht
        rcases List.mem_append.mp ht with hin | hin
        · exact hent t hin
        · rw [List.mem_singleton.mp hin]
          refine ⟨j, hq', ?_, rfl, rfl⟩
          intro j' q'
          exact hmin j' q'.1 ⟨q'.2.1, q'.2.2.1, q'.2.2.2.1, q'.2.2.2.2⟩
    · rw [heq]
      refine ⟨hl1, hl2, hpw, ?_, hent⟩
      intro x
      rw [hiff x]
      constructor
      · rintro ⟨a, b, c⟩
        exact ⟨by omega, b, c⟩
      · rintro ⟨a, b, c⟩
        refine ⟨?_, b, c⟩
        rcases (show x < k ∨ x = k by omega) with hlt | hEq
        · exact hlt
        · subst hEq
          obtain ⟨j, hq⟩ := c
          have hj31 : j < x + 31 := hq.2.2.1
          exact (hnone j hq.1 (by omega)
            ⟨hq.2.1, hq.2.2.1, hq.2.2.2.1, hq.2.2.2.2⟩).elim
  · rw [if_neg h35]
    refine ⟨hl1, hl2, hpw, ?_, hent⟩
    intro x
    rw [hiff x]
    constructor
    · rintro ⟨a, b, c⟩
      exact ⟨by omega, b, c⟩
    · rintro ⟨a, b, c⟩
      refine ⟨?_, b, c⟩
      rcases (show x < k ∨ x = k by omega) with hlt | hEq
      · exact hlt
      · subst hEq
        exact absurd b h35

/-- The scan invariant holds after folding over `range k`, for every `k`. -/
theorem scan_inv_range (seq : List Char) (threshold : Int) :
    ∀ k, ScanInv seq threshold k
      ((List.range k).foldl (outer_step seq threshold) ⟨[], [], []⟩) := by
  intro k
  induction k with
  | zero =>
    refine ⟨rfl, rfl, List.Pairwise.nil, ?_, ?_⟩
    · intro x
      constructor
      · intro h
        exact absurd h (List.not_mem_nil x)
      · rintro ⟨a, _, _⟩
        exact absurd a (Nat.not_lt_zero x)
    · intro t ht
      exact absurd ht (List.not_mem_nil t)
  | succ k ih =>
    rw [List.range_succ, List.foldl_append]
    exact scan_inv_step seq threshold k _ ih

/-- The scan invariant holds of the scanner's result. -/
theorem scan_inv_find (seq : List Char) (threshold : Int) :
    ScanInv seq threshold (seq.length - 5)
      (find_possible_prokaryotic_sequences seq threshold) :=
  scan_inv_range seq threshold (seq.length - 5)

/-- Membership in the result's position list, characterized: the anchor is
in the outer range, its -35 score passes, and some downstream offset
qualifies. -/
theorem mem_find_positions (seq : List Char) (threshold : Int) (x : Nat) :
    x ∈ (find_possible_prokaryotic_sequences seq threshold).positions ↔
      x < seq.length - 5 ∧ 4 ≤ score35 seq x ∧
        ∃ j, Qualifies seq threshold x j :=
  (scan_inv_find seq threshold).2.2.2.1 x

/-- The result's position list is strictly increasing. -/
theorem find_positions_pairwise (seq : List Char) (threshold : Int) :
    (find_possible_prokaryotic_sequences seq threshold).positions.Pairwise (· < ·) :=
  (scan_inv_find seq threshold).2.2.1

/-- The three parallel result arrays have equal lengths. -/
theorem find_lengths (seq : List Char) (threshold : Int) :
    (find_possible_prokaryotic_sequences seq threshold).sequences.length =
        (find_possible_prokaryotic_sequences seq threshold).positions.length ∧
      (find_possible_prokaryotic_sequences seq threshold).scores.length =
        (find_possible_prokaryotic_sequences seq threshold).positions.length :=
  ⟨(scan_inv_find seq threshold).1, (scan_inv_find seq threshold).2.1⟩

/-- Every recorded candidate tuple satisfies the entry invariant. -/
theorem find_entries (seq : List Char) (threshold : Int) :
    ∀ t ∈ candidates (find_possible_prokaryotic_sequences seq threshold),
      EntryInv seq threshold t :=
  (scan_inv_find seq threshold).2.2.2.2

/-- Membership in the visited-offset list, characterized. -/
theorem mem_examined_offsets (seq : List Char) (i : Nat) :
    ∀ fuel j0 j, j ∈ examined_offsets seq i j0 fuel ↔
      (j0 ≤ j ∧ j < j0 + fuel ∧ j < seq.length - 11 ∧ j < i + 31) := by
  intro fuel
  induction fuel with
  | zero =>
    intro j0 j
    simp only [examined_offsets, List.not_mem_nil, false_iff]
    omega
  | succ fuel ih =>
    intro j0 j
    unfold examined_offsets
    by_cases hc : j0 < seq.length - 11 ∧ j0 < i + 31
    · rw [if_pos hc, List.mem_cons, ih (j0 + 1) j]
      constructor
      · rintro (rfl | ⟨h1, h2, h3, h4⟩)
        · exact ⟨Nat.le_refl j, by omega, hc.1, hc.2⟩
        · exact ⟨by omega, by omega, h3, h4⟩
      · rintro ⟨h1, h2, h3, h4⟩
        rcases (show j = j0 ∨ j0 + 1 ≤ j by omega) with rfl | h
        · exact Or.inl rfl
        · exact Or.inr ⟨h, by omega, h3, h4⟩
    · rw [if_neg hc]
      constructor
      · intro h
        exact absurd h (List.not_mem_nil j)
      · rintro ⟨h1, h2, h3, h4⟩
        exact (hc ⟨by omega, by omega⟩).elim

/-- The visited offsets are listed in strictly increasing order. -/
theorem examined_offsets_sorted (seq : List Char) (i : Nat) :
    ∀ fuel j0, (examined_offsets seq i j0 fuel).Pairwise (· < ·) := by
  intro fuel
  induction fuel with
  | zero => intro j0; exact List.Pairwise.nil
  | succ fuel ih =>
    intro j0
    unfold examined_offsets
    split
    · refine List.Pairwise.cons ?_ (ih (j0 + 1))
      intro b hb
      have := (mem_examined_offsets seq i fuel (j0 + 1) b).mp hb
      omega
    · exact List.Pairwise.nil

/-- The inner loop is the fold of its body over exactly the visited
offsets, in order. -/
theorem inner_loop_eq_foldl (seq : List Char) (threshold : Int) (i n35 : Nat) :
    ∀ fuel j0 acc, inner_loop seq threshold i n35 j0 fuel acc =
      (examined_offsets seq i j0 fuel).foldl (inner_step seq threshold i n35) acc := by
  intro fuel
  induction fuel with
  | zero => intro j0 acc; rfl
  | succ fuel ih =>
    intro j0 acc
    unfold inner_loop examined_offsets
    by_cases hc : j0 < seq.length - 11 ∧ j0 < i + 31
    · rw [if_pos hc, if_pos hc, List.foldl_cons]
      exact ih (j0 + 1) (inner_step seq threshold i n35 acc j0)
    · rw [if_neg hc, if_neg hc]
      rfl

/-- The recorded span `input[i : j+6]` has length `(j - i) + 6` whenever
`i ≤ j` and `j` survives the loop guard `j < len - 11`. -/
theorem span_length (seq : List Char) (i j : Nat) (hij : i ≤ j)
    (hj : j < seq.length - 11) :
    ((seq.drop i).take (j + 6 - i)).length = (j - i) + 6 := by
  rw [List.length_take, List.length_drop]
  omega

/-- `fuzzy_match`'s loop yields `none` exactly on the `IndexError` case:
the second list is strictly shorter than the first. -/
theorem fuzzy_match_aux_none :
    ∀ (l1 l2 : List Char) (acc : Nat), l2.length < l1.length →
      fuzzy_match_aux l1 l2 acc = none := by
  intro l1
  induction l1 with
  | nil =>
    intro l2 acc h
    exact absurd h (Nat.not_lt_zero _)
  | cons c1 t1 ih =>
    intro l2 acc h
    cases l2 with
    | nil => rfl
    | cons c2 t2 => exact ih t2 _ (by simpa using h)

/-- `fuzzy_match`'s loop succeeds when the second list is at least as long
as the first. -/
theorem fuzzy_match_aux_isSome :
    ∀ (l1 l2 : List Char) (acc : Nat), l1.length ≤ l2.length →
      (fuzzy_match_aux l1 l2 acc).isSome := by
  intro l1
  induction l1 with
  | nil => intro l2 acc _; rfl
  | cons c1 t1 ih =>
    intro l2 acc h
    cases l2 with
    | nil => exact absurd h (by simp)
    | cons c2 t2 => exact ih t2 _ (by simpa using h)

/-- Characters of the second list beyond the length of the first are never
read by `fuzzy_match`'s loop. -/
theorem fuzzy_match_aux_take :
    ∀ (l1 l2 : List Char) (acc : Nat), l1.length ≤ l2.length →
      fuzzy_match_aux l1 (l2.take l1.length) acc = fuzzy_match_aux l1 l2 acc := by
  intro l1
  induction l1 with
  | nil => intro l2 acc _; rfl
  | cons c1 t1 ih =>
    intro l2 acc h
    cases l2 with
    | nil => exact absurd h (by simp)
    | cons c2 t2 =>
      rw [List.length_cons, List.take_succ_cons]
      exact ih t2 _ (by simpa using h)

/-- Uppercasing fixes the four standard nucleotide symbols. -/
theorem upper_char_base (c : Char) (h : c ∈ bases) : upper_char c = c := by
  fin_cases h <;> decide

/-- Uppercasing fixes every string over the standard alphabet. -/
theorem map_upper_of_bases :
    ∀ (l : List Char), (∀ c ∈ l, c ∈ bases) → l.map upper_char = l := by
  intro l
  induction l with
  | nil => intro _; rfl
  | cons c t ih =>
    intro h
    rw [List.map_cons, upper_char_base c (h c (List.mem_cons_self c t)),
      ih (fun x hx => h x (List.mem_cons_of_mem c hx))]

/-- On the plain four-letter alphabet, the per-position comparison is
symmetric: none of the ambiguity branches can fire, so only the equality
test remains. -/
theorem char_match_comm_base (c1 c2 : Char) (h1 : c1 ∈ bases) (h2 : c2 ∈ bases) :
    char_match c1 c2 = char_match c2 c1 := by
  fin_cases h1 <;> fin_cases h2 <;> decide

/-- The loop of `fuzzy_match` is symmetric on equal-length strings over the
standard alphabet. -/
theorem fuzzy_match_aux_comm_base :
    ∀ (l1 l2 : List Char) (acc : Nat), l1.length = l2.length →
      (∀ c ∈ l1, c ∈ bases) → (∀ c ∈ l2, c ∈ bases) →
      fuzzy_match_aux l1 l2 acc = fuzzy_match_aux l2 l1 acc := by
  intro l1
  induction l1 with
  | nil =>
    intro l2 acc hl _ _
    have : l2 = [] := List.length_eq_zero.mp hl.symm
    rw [this]
  | cons c1 t1 ih =>
    intro l2 acc hl h1 h2
    cases l2 with
    | nil => simp at hl
    | cons c2 t2 =>
      show fuzzy_match_aux t1 t2 _ = fuzzy_match_aux t2 t1 _
      rw [char_match_comm_base c1 c2 (h1 c1 (List.mem_cons_self c1 t1))
        (h2 c2 (List.mem_cons_self c2 t2))]
      exact ih t2 _ (by simpa using hl)
        (fun x hx => h1 x (List.mem_cons_of_mem c1 hx))
        (fun x hx => h2 x (List.mem_cons_of_mem c2 hx))

/-- Truncation: `fuzzy_match` never reads characters of the second string
beyond the length of the first. -/
theorem fuzzy_match_take (s1 s2 : List Char) (h : s1.length ≤ s2.length) :
    fuzzy_match s1 (s2.take s1.length) = fuzzy_match s1 s2 := by
  unfold fuzzy_match
  rw [List.map_take]
  have h1 : (s1.map upper_char).length ≤ (s2.map upper_char).length := by
    simp only [List.length_map]
    exact h
  have h2 : s1.length = (s1.map upper_char).length := by
    simp only [List.length_map]
  rw [h2]
  exact fuzzy_match_aux_take _ _ 0 h1

/-- `fuzzy_match` returns a value when the first string is not longer than
the second. -/
theorem fuzzy_match_isSome (s1 s2 : List Char) (h : s1.length ≤ s2.length) :
    (fuzzy_match s1 s2).isSome :=
  fuzzy_match_aux_isSome _ _ 0 (by simp only [List.length_map]; exact h)

/-- `fuzzy_match` fails (the `IndexError` case) when the first string is
strictly longer than the second. -/
theorem fuzzy_match_none (s1 s2 : List Char) (h : s2.length < s1.length) :
    fuzzy_match s1 s2 = none :=
  fuzzy_match_aux_none _ _ 0 (by simp only [List.length_map]; exact h)

/-- Claim C1, counterexample: on the spec's scenario input
`TTGACATGTAAAAAAAAAAAAAAATATAAT` with threshold 8 the scanner does not
return a single candidate at position 0 - its position list is not `[0]`.
The first examined -10 offset would be `21`, but the loop guard demands
`21 < 30 - 11 = 19`, so the inner loop never runs and nothing is emitted. -/
theorem c1_scenario_counterexample :
    (find_possible_prokaryotic_sequences scenario_seq 8).positions ≠ [0] := by
  decide

/-- Claim C1, amended: on the scenario input (which has 30 characters, not
31) the scanner returns no candidate at all: the result is the empty dict. -/
theorem c1_amended_scenario_empty :
    find_possible_prokaryotic_sequences scenario_seq 8 =
        PossiblePromoters.mk [] [] [] ∧
      scenario_seq.length = 30 := by
  constructor
  · decide
  · decide

/-- Claim C2, counterexample: for observed symbol `G` a pattern position
holding the ambiguity code `R` does not count: the source compares the
observed symbol with the literals `A` and `Y` (line 78), so `G` scores 0,
contradicting the claimed IUPAC behavior (`R` matches A or G). -/
theorem c2_R_counterexample :
    fuzzy_match ['G'] ['R'] = some 0 := by
  decide

/-- Claim C2, amended: for an observed symbol drawn from A, C, G, T, a
pattern position holding `R` counts if and only if the observed symbol is
`A` (the other literal the code compares against, `Y`, is not in the
observed alphabet). -/
theorem c2_amended_R_matches_only_A (c : Char)
    (h : c = 'A' ∨ c = 'C' ∨ c = 'G' ∨ c = 'T') :
    fuzzy_match [c] ['R'] = some 1 ↔ c = 'A' := by
  rcases h with rfl | rfl | rfl | rfl <;> decide

/-- Witness for the amended C2 at the concrete observed symbol `A`. -/
theorem c2_amended_R_matches_only_A_witness :
    fuzzy_match ['A'] ['R'] = some 1 :=
  (c2_amended_R_matches_only_A 'A' (Or.inl rfl)).mpr rfl

/-- Claim C3, counterexample: `fuzzy_match("AAAAAA", "TTGACA")` is not 0 -
positions 3 and 5 of the pattern hold `A` and match the observed `A`. -/
theorem c3_scenario_counterexample :
    fuzzy_match "AAAAAA".toList "TTGACA".toList ≠ some 0 := by
  decide

/-- Claim C3, amended: `fuzzy_match("AAAAAA", "TTGACA")` returns 2. -/
theorem c3_amended_score_two :
    fuzzy_match "AAAAAA".toList "TTGACA".toList = some 2 := by
  decide

/-- Claim C4: for an admitted -35 anchor at offset `i`, the downstream -10
offsets examined are exactly the integers `j` with `i+21 ≤ j`,
`j < length - 11` and `j < i+31`; they are visited in increasing order, and
the scanner's inner loop is precisely the fold of its body over that list. -/
theorem c4_examined_offsets (seq : List Char) (i : Nat)
    (h1 : i + 5 < seq.length) (h2 : 4 ≤ score35 seq i) :
    (∀ j, j ∈ inner_examined seq i ↔
        i + 21 ≤ j ∧ j < seq.length - 11 ∧ j < i + 31)
    ∧ (inner_examined seq i).Pairwise (· < ·)
    ∧ (∀ threshold acc,
        inner_loop seq threshold i (score35 seq i) (i + 21) 10 acc =
          (inner_examined seq i).foldl
            (inner_step seq threshold i (score35 seq i)) acc) := by
  refine ⟨?_, examined_offsets_sorted seq i 10 (i + 21), ?_⟩
  · intro j
    rw [inner_examined, mem_examined_offsets seq i 10 (i + 21) j]
    omega
  · intro threshold acc
    exact inner_loop_eq_foldl seq threshold i (score35 seq i) 10 (i + 21) acc

/-- Witness for C4 at the admitted anchor 0 of the concrete `test_seq`. -/
theorem c4_examined_offsets_witness :
    (∀ j, j ∈ inner_examined test_seq 0 ↔
        0 + 21 ≤ j ∧ j < test_seq.length - 11 ∧ j < 0 + 31)
    ∧ (inner_examined test_seq 0).Pairwise (· < ·)
    ∧ (∀ threshold acc,
        inner_loop test_seq threshold 0 (score35 test_seq 0) (0 + 21) 10 acc =
          (inner_examined test_seq 0).foldl
            (inner_step test_seq threshold 0 (score35 test_seq 0)) acc) :=
  c4_examined_offsets test_seq 0 (by decide) (by decide)

/-- Claim C5: the parallel result arrays stay in lockstep and every emitted
candidate has a -35 match count of at least 4, a -10 match count of at
least 4 at its recorded -10 offset `j`, a combined score that is their sum
and at least the threshold, and a span of length `(j - i) + 6`. -/
theorem c5_candidate_scores (seq : List Char) (threshold : Int) :
    ((find_possible_prokaryotic_sequences seq threshold).sequences.length =
        (find_possible_prokaryotic_sequences seq threshold).positions.length ∧
      (find_possible_prokaryotic_sequences seq threshold).scores.length =
        (find_possible_prokaryotic_sequences seq threshold).positions.length)
    ∧ ∀ t ∈ candidates (find_possible_prokaryotic_sequences seq threshold),
        ∃ j, 4 ≤ score35 seq t.1 ∧ 4 ≤ score10 seq j ∧
          t.2.2 = score35 seq t.1 + score10 seq j ∧
          threshold ≤ (t.2.2 : Int) ∧
          t.2.1 = (seq.drop t.1).take (j + 6 - t.1) ∧
          t.2.1.length = (j - t.1) + 6 := by
  refine ⟨find_lengths seq threshold, ?_⟩
  intro t ht
  obtain ⟨j, hq, hmin, hspan, hscore⟩ := find_entries seq threshold t ht
  have ht' : t ∈ (find_possible_prokaryotic_sequences seq threshold).positions.zip
      ((find_possible_prokaryotic_sequences seq threshold).sequences.zip
        (find_possible_prokaryotic_sequences seq threshold).scores) := ht
  have hmem : t.1 ∈ (find_possible_prokaryotic_sequences seq threshold).positions :=
    mem_zip3_fst _ _ _ t ht'
  have h35 : 4 ≤ score35 seq t.1 :=
    ((mem_find_positions seq threshold t.1).mp hmem).2.1
  have hij : t.1 ≤ j := by
    have := hq.1
    omega
  refine ⟨j, h35, hq.2.2.2.1, hscore, ?_, hspan, ?_⟩
  · rw [hscore]
    push_cast
    exact hq.2.2.2.2
  · rw [hspan]
    exact span_length seq t.1 j hij hq.2.1

/-- Witness for C5 at the single candidate the scanner finds on `test_seq`
with threshold 8. -/
theorem c5_candidate_scores_witness :
    ∃ j, 4 ≤ score35 test_seq 0 ∧ 4 ≤ score10 test_seq j ∧
      (12 : Nat) = score35 test_seq 0 + score10 test_seq j ∧
      (8 : Int) ≤ ((12 : Nat) : Int) ∧
      test_seq.take 27 = (test_seq.drop 0).take (j + 6 - 0) ∧
      (test_seq.take 27).length = (j - 0) + 6 :=
  (c5_candidate_scores test_seq 8).2 (0, (test_seq.take 27, 12)) (by decide)

/-- Claim C6: the returned start positions are strictly increasing (so no
two candidates share a start), and each recorded candidate corresponds to
the smallest qualifying -10 offset for its start. -/
theorem c6_first_match_kept (seq : List Char) (threshold : Int) :
    (find_possible_prokaryotic_sequences seq threshold).positions.Pairwise (· < ·)
    ∧ ∀ t ∈ candidates (find_possible_prokaryotic_sequences seq threshold),
        ∃ j, Qualifies seq threshold t.1 j ∧
          (∀ j', Qualifies seq threshold t.1 j' → j ≤ j') ∧
          t.2.1 = (seq.drop t.1).take (j + 6 - t.1) ∧
          t.2.2 = score35 seq t.1 + score10 seq j :=
  ⟨find_positions_pairwise seq threshold, find_entries seq threshold⟩

/-- Witness for C6 at the single candidate the scanner finds on `test_seq`
with threshold 8. -/
theorem c6_first_match_kept_witness :
    ∃ j, Qualifies test_seq 8 0 j ∧
      (∀ j', Qualifies test_seq 8 0 j' → j ≤ j') ∧
      test_seq.take 27 = (test_seq.drop 0).take (j + 6 - 0) ∧
      (12 : Nat) = score35 test_seq 0 + score10 test_seq j :=
  (c6_first_match_kept test_seq 8).2 (0, (test_seq.take 27, 12)) (by decide)

/-- Claim C7: raising the threshold can only remove start positions - every
position returned at the higher threshold `t2` is also returned at the
lower threshold `t1`. -/
theorem c7_threshold_monotone (seq : List Char) (t1 t2 : Int) (h : t1 < t2) :
    ∀ i ∈ (find_possible_prokaryotic_sequences seq t2).positions,
      i ∈ (find_possible_prokaryotic_sequences seq t1).positions := by
  intro i hi
  rw [mem_find_positions] at hi ⊢
  obtain ⟨ha, hb, j, hq⟩ := hi
  exact ⟨ha, hb, j, hq.1, hq.2.1, hq.2.2.1, hq.2.2.2.1,
    le_trans (le_of_lt h) hq.2.2.2.2⟩

/-- Witness for C7: position 0 is returned on `test_seq` at threshold 12,
hence also at threshold 8. -/
theorem c7_threshold_monotone_witness :
    0 ∈ (find_possible_prokaryotic_sequences test_seq 8).positions :=
  c7_threshold_monotone test_seq 8 12 (by decide) 0 (by decide)

/-- Claim C8: every recorded candidate's -10 offset `j` satisfies
`j + 12 ≤ length` (equivalently `j ≤ length - 12`), its span ends at
`j + 5 ≤ length - 7`, at least 6 trailing symbols follow every reported
span, and no offset within 11 positions of the end is ever examined. -/
theorem c8_trailing_margin (seq : List Char) (threshold : Int) :
    (∀ t ∈ candidates (find_possible_prokaryotic_sequences seq threshold),
      ∃ j, t.2.1 = (seq.drop t.1).take (j + 6 - t.1) ∧
        j + 12 ≤ seq.length ∧ j + 5 ≤ seq.length - 7 ∧
        t.1 + t.2.1.length + 6 ≤ seq.length)
    ∧ (∀ i j, j ∈ inner_examined seq i → j + 11 < seq.length) := by
  constructor
  · intro t ht
    obtain ⟨j, hq, hmin, hspan, hscore⟩ := find_entries seq threshold t ht
    have hij : t.1 ≤ j := by
      have := hq.1
      omega
    have hlen : j < seq.length - 11 := hq.2.1
    refine ⟨j, hspan, by omega, by omega, ?_⟩
    rw [hspan, span_length seq t.1 j hij hlen]
    omega
  · intro i j hj
    have := (mem_examined_offsets seq i 10 (i + 21) j).mp hj
    omega

/-- Witness for C8 at the single candidate the scanner finds on `test_seq`
with threshold 8, and at the examined offset 21 for anchor 0. -/
theorem c8_trailing_margin_witness :
    (∃ j, test_seq.take 27 = (test_seq.drop 0).take (j + 6 - 0) ∧
      j + 12 ≤ test_seq.length ∧ j + 5 ≤ test_seq.length - 7 ∧
      0 + (test_seq.take 27).length + 6 ≤ test_seq.length)
    ∧ 21 + 11 < test_seq.length :=
  ⟨(c8_trailing_margin test_seq 8).1 (0, (test_seq.take 27, 12)) (by decide),
   (c8_trailing_margin test_seq 8).2 0 21 (by decide)⟩

/-- Claim C9: with a shorter first string, `fuzzy_match` silently truncates
to the first string's length and returns a value; with a longer first
string it fails (the `IndexError` case, embedded as `none`). -/
theorem c9_length_mismatch (s1 s2 : List Char) :
    (s1.length < s2.length →
      (fuzzy_match s1 s2).isSome ∧
        fuzzy_match s1 s2 = fuzzy_match s1 (s2.take s1.length))
    ∧ (s2.length < s1.length → fuzzy_match s1 s2 = none) := by
  constructor
  · intro h
    exact ⟨fuzzy_match_isSome s1 s2 (le_of_lt h),
      (fuzzy_match_take s1 s2 (le_of_lt h)).symm⟩
  · intro h
    exact fuzzy_match_none s1 s2 h

/-- Witness for C9 at concrete strings of lengths 2 and 4. -/
theorem c9_length_mismatch_witness :
    ((fuzzy_match "AC".toList "ACGT".toList).isSome ∧
      fuzzy_match "AC".toList "ACGT".toList =
        fuzzy_match "AC".toList ("ACGT".toList.take "AC".toList.length))
    ∧ fuzzy_match "ACGT".toList "AC".toList = none :=
  ⟨(c9_length_mismatch "AC".toList "ACGT".toList).1 (by decide),
   (c9_length_mismatch "ACGT".toList "AC".toList).2 (by decide)⟩

/-- Claim C10: on equal-length strings over the plain alphabet A, C, G, T -
in particular the consensus constants against any window of a validated
sequence - `fuzzy_match` is symmetric in its two arguments, so the
scanner's pattern-first argument order computes the same value as the
spec's observed-first order. -/
theorem c10_fuzzy_match_comm (s t : List Char) (hl : s.length = t.length)
    (hs : ∀ c ∈ s, c ∈ bases) (ht : ∀ c ∈ t, c ∈ bases) :
    fuzzy_match s t = fuzzy_match t s := by
  unfold fuzzy_match
  rw [map_upper_of_bases s hs, map_upper_of_bases t ht]
  exact fuzzy_match_aux_comm_base s t 0 hl hs ht

/-- Witness for C10 at the -35 consensus against a concrete window. -/
theorem c10_fuzzy_match_comm_witness :
    fuzzy_match SEQUENCE_35 "TGTAAT".toList =
      fuzzy_match "TGTAAT".toList SEQUENCE_35 :=
  c10_fuzzy_match_comm SEQUENCE_35 "TGTAAT".toList (by decide) (by decide)
    (by decide)
